/-
Verification of the genre-mapper plugin (src/__init__.py).

Python strings are modelled as `List Char`.  The Python `re` usage in the
plugin (`re.search(pattern, genre, re.IGNORECASE)`) is modelled by a small
regular-expression engine: a parser for the syntax fragment the plugin can
produce or reasonably receive (literals, `.`, escapes, `*`/`+`/`?`
quantifiers, character classes, leading `^` and trailing `$` anchors), and a
Brzozowski-derivative matcher.  An invalid pattern (e.g. an unclosed
character class) makes the parser return `none`, modelling `re.error`.
All definitions are executable.
-/
import Mathlib

namespace GenreMapper

/-! ### Basic string (List Char) utilities -/

/-- Concatenation map over characters (used to reason about `str.replace`). -/
def cmap (f : Char → List Char) : List Char → List Char
  | [] => []
  | c :: cs => f c ++ cmap f cs

/-- Python `str.replace(old, new)` restricted to a single-character `old`,
which is the only form the plugin uses (`.`, `*`, `?`, `^`, `$`, `\n`). -/
def replace1 (a : Char) (rep : List Char) (s : List Char) : List Char :=
  cmap (fun c => if c = a then rep else [c]) s

/-- The whitespace characters stripped by Python `str.strip()` (ASCII part). -/
def isSpaceC (c : Char) : Bool :=
  c = ' ' || c = '\t' || c = '\n' || c = '\r' || c = '\x0b' || c = '\x0c'

/-- Python `str.strip()`: drop leading and trailing whitespace. -/
def pyStrip (s : List Char) : List Char :=
  (((s.dropWhile isSpaceC).reverse).dropWhile isSpaceC).reverse

/-- Helper for splitters: push a character onto the head piece. -/
def consHead (c : Char) : List (List Char) → List (List Char)
  | [] => [[c]]
  | l :: ls => (c :: l) :: ls

/-- Model of `re.compile(r"\r\n|\n\r|\n").split`: split on any of the three line
endings, leftmost match first, `\r\n` preferred over `\n\r` over `\n`. -/
def pairsSplit : List Char → List (List Char)
  | [] => [[]]
  | '\r' :: '\n' :: rest => [] :: pairsSplit rest
  | '\n' :: '\r' :: rest => [] :: pairsSplit rest
  | '\n' :: rest => [] :: pairsSplit rest
  | c :: rest => consHead c (pairsSplit rest)

/-- Boolean prefix test. -/
def isPre : List Char → List Char → Bool
  | [], _ => true
  | _ :: _, [] => false
  | a :: as, b :: bs => a = b && isPre as bs

/-- Fuel-driven worker for `splitStr`. -/
def splitGo (sep : List Char) : Nat → List Char → List (List Char)
  | 0, s => [s]
  | _ + 1, [] => [[]]
  | f + 1, c :: cs =>
    if isPre sep (c :: cs) then
      [] :: splitGo sep f (cs.drop (sep.length - 1))
    else
      consHead c (splitGo sep f cs)

/-- Python `str.split(sep)` with an explicit non-empty separator:
every occurrence splits, empty pieces are kept. -/
def splitStr (sep : List Char) (s : List Char) : List (List Char) :=
  splitGo sep (s.length + 1) s

/-- Python `str.title()` (ASCII model): the first alphabetic character of
each alphabetic run is uppercased, the rest are lowercased. -/
def pyTitleGo : Bool → List Char → List Char
  | _, [] => []
  | prevAlpha, c :: cs =>
    if c.isAlpha then
      (if prevAlpha then c.toLower else c.toUpper) :: pyTitleGo true cs
    else
      c :: pyTitleGo false cs

/-- Python `str.title()`. -/
def pyTitle (s : List Char) : List Char := pyTitleGo false s

/-- Lexicographic (code-point) string comparison, as Python `sorted` uses. -/
def lexLe : List Char → List Char → Bool
  | [], _ => true
  | _ :: _, [] => false
  | a :: as, b :: bs => if a = b then lexLe as bs else decide (a < b)

/-- The proposition form of `lexLe`, for `List.insertionSort`. -/
def LexLe (a b : List Char) : Prop := lexLe a b = true

instance : DecidableRel LexLe := fun a b => by unfold LexLe; infer_instance

/-- Model of `sorted(...)` on a list of genre strings. -/
def sortL (l : List (List Char)) : List (List Char) := List.insertionSort LexLe l

/-- Model of adding to a Python `set`: insert only if not already present. -/
def addToSet (x : List Char) (s : List (List Char)) : List (List Char) :=
  if x ∈ s then s else x :: s

/-! ### Regular expressions, as used by `re.search(pattern, genre, re.IGNORECASE)`

The parser accepts the fragment of Python `re` syntax the plugin produces
(or that the claims exercise): ordinary characters, `.`, `\`-escaped
symbols, `*`/`+`/`?` quantifiers on the preceding atom, character classes
`[...]` with ranges and `^`-negation, a leading `^` anchor and a trailing
`$` anchor.  Everything else (alternation, groups, escaped letters, a
mid-pattern anchor, an unclosed class, a quantifier with nothing to
repeat) makes the parser return `none`, modelling `re.error`. -/

/-- A single-character regex atom. -/
inductive RAtom : Type
  | any : RAtom
  | lit (c : Char) : RAtom
  | cls (neg : Bool) (ranges : List (Char × Char)) : RAtom
deriving DecidableEq

/-- Quantifier attached to an atom. -/
inductive Quant : Type
  | one : Quant
  | star : Quant
  | plus : Quant
  | opt : Quant
deriving DecidableEq

/-- A quantified atom. -/
abbrev RPiece : Type := RAtom × Quant

/-- A parsed pattern: optional `^` anchor, pieces, optional `$` anchor. -/
structure RE : Type where
  caret : Bool
  pieces : List RPiece
  dollar : Bool
deriving DecidableEq

/-- Whether a range list contains a character (code-point comparison). -/
def inRanges (ranges : List (Char × Char)) (c : Char) : Bool :=
  ranges.any fun r => decide (r.1 ≤ c) && decide (c ≤ r.2)

/-- Atom versus character, with `re.IGNORECASE` baked in.
`.` does not match a newline (no `re.DOTALL`). -/
def matchAtom : RAtom → Char → Bool
  | .any, c => decide (c ≠ '\n')
  | .lit a, c => a.toLower = c.toLower
  | .cls neg ranges, c =>
    let hit := inRanges ranges c || inRanges ranges c.toLower || inRanges ranges c.toUpper
    if neg then !hit else hit

/-- Core regexes for the derivative matcher. -/
inductive Rx : Type
  | emp : Rx
  | eps : Rx
  | chr (a : RAtom) : Rx
  | cat (r s : Rx) : Rx
  | alt (r s : Rx) : Rx
  | star (r : Rx) : Rx

/-- Does the regex accept the empty string? -/
def nullable : Rx → Bool
  | .emp => false
  | .eps => true
  | .chr _ => false
  | .cat r s => nullable r && nullable s
  | .alt r s => nullable r || nullable s
  | .star _ => true

/-- Brzozowski derivative with respect to one character. -/
def deriv (r : Rx) (c : Char) : Rx :=
  match r with
  | .emp => .emp
  | .eps => .emp
  | .chr a => if matchAtom a c then .eps else .emp
  | .cat r s =>
    if nullable r then .alt (.cat (deriv r c) s) (deriv s c)
    else .cat (deriv r c) s
  | .alt r s => .alt (deriv r c) (deriv s c)
  | .star r => .cat (deriv r c) (.star r)

/-- Does `r` match exactly the string `s`? -/
def rxMatch (r : Rx) : List Char → Bool
  | [] => nullable r
  | c :: s => rxMatch (deriv r c) s

/-- Translate one quantified atom to a core regex. -/
def pieceRx : RPiece → Rx
  | (a, .one) => .chr a
  | (a, .star) => .star (.chr a)
  | (a, .plus) => .cat (.chr a) (.star (.chr a))
  | (a, .opt) => .alt .eps (.chr a)

/-- Translate a piece sequence to a core regex. -/
def toRx (ps : List RPiece) : Rx :=
  ps.foldr (fun p acc => .cat (pieceRx p) acc) .eps

/-- Does the body match some prefix of `t`, with the trailing part
acceptable to the `$` anchor?  Without `re.MULTILINE`, Python's `$`
matches at the end of the string or just before a final newline. -/
def matchFrom (r : Rx) (dollar : Bool) : List Char → Bool
  | [] => nullable r
  | c :: s =>
    (nullable r && (!dollar || decide (c :: s = ['\n']))) ||
      matchFrom (deriv r c) dollar s

/-- Try a prefix-match at every suffix of the text (like `re.search`). -/
def anySuffix (f : List Char → Bool) : List Char → Bool
  | [] => f []
  | c :: cs => f (c :: cs) || anySuffix f cs

/-- Model of `re.search(pattern, t, re.IGNORECASE)` truthiness for a parsed
pattern: with a `^` anchor only position 0 is tried, otherwise every
position is tried. -/
def reSearch (re : RE) (t : List Char) : Bool :=
  if re.caret then matchFrom (toRx re.pieces) re.dollar t
  else anySuffix (fun s => matchFrom (toRx re.pieces) re.dollar s) t

/-- Does the pattern's body match the *entire* token? -/
def reFull (re : RE) (t : List Char) : Bool :=
  rxMatch (toRx re.pieces) t

/-- Parser state: top level, after a backslash, just after `[` (possibly
after `[^`), or inside a class with accumulated ranges, a pending
character, and a pending `-` for a range. -/
inductive PMode : Type
  | top : PMode
  | esc : PMode
  | clsNew (neg : Bool) : PMode
  | inCls (neg : Bool) (items : List (Char × Char)) (pend : Option Char) (dash : Bool) : PMode

/-- Map a quantifier character to the quantifier. -/
def quantOf (c : Char) : Quant :=
  if c = '*' then .star else if c = '+' then .plus else .opt

/-- The pattern parser: one pass over the characters.  Returns the parsed
pieces and whether the pattern ended with a `$` anchor, or `none` on a
syntax error (`re.error`). -/
def pLoop : List Char → List RPiece → PMode → Option (List RPiece × Bool)
  | [], acc, .top => some (acc.reverse, false)
  | ['$'], acc, .top => some (acc.reverse, true)
  | c :: rest, acc, .top =>
    if c = '$' || c = '^' || c = '|' || c = '(' || c = ')' then none
    else if c = '\\' then pLoop rest acc .esc
    else if c = '[' then pLoop rest acc (.clsNew false)
    else if c = '.' then pLoop rest ((.any, .one) :: acc) .top
    else if c = '*' || c = '+' || c = '?' then
      match acc with
      | (a, .one) :: acc' => pLoop rest ((a, quantOf c) :: acc') .top
      | _ => none
    else pLoop rest ((.lit c, .one) :: acc) .top
  | c :: rest, acc, .esc =>
    if c.isAlphanum then none else pLoop rest ((.lit c, .one) :: acc) .top
  | c :: rest, acc, .clsNew neg =>
    if c = '^' && neg = false then pLoop rest acc (.clsNew true)
    else pLoop rest acc (.inCls neg [] (some c) false)
  | c :: rest, acc, .inCls neg items pend dash =>
    if c = ']' then
      match dash, pend with
      | true, some p =>
        pLoop rest ((.cls neg ((('-', '-') :: (p, p) :: items).reverse), .one) :: acc) .top
      | true, none => none
      | false, some p => pLoop rest ((.cls neg (((p, p) :: items).reverse), .one) :: acc) .top
      | false, none => pLoop rest ((.cls neg items.reverse, .one) :: acc) .top
    else if c = '-' && dash = false && pend.isSome then
      pLoop rest acc (.inCls neg items pend true)
    else
      match dash, pend with
      | true, some p => pLoop rest acc (.inCls neg ((p, c) :: items) none false)
      | true, none => none
      | false, some p => pLoop rest acc (.inCls neg ((p, p) :: items) (some c) false)
      | false, none => pLoop rest acc (.inCls neg items (some c) false)
  | [], _, _ => none

/-- Model of compiling a pattern with `re.IGNORECASE`: a leading `^`
becomes the anchor flag, the rest is parsed by `pLoop`.  `none` models
`re.error`. -/
def parseRE (p : List Char) : Option RE :=
  match p with
  | '^' :: rest => (pLoop rest [] .top).map fun pr => ⟨true, pr.1, pr.2⟩
  | _ => (pLoop p [] .top).map fun pr => ⟨false, pr.1, pr.2⟩

/-- Truthiness of `re.search(pat, t, re.IGNORECASE)` for a valid pattern;
`false` when the pattern is invalid. -/
def patSearch (pat : List Char) (t : List Char) : Bool :=
  (parseRE pat).elim false fun re => reSearch re t

/-- Whole-token counterpart of `patSearch`. -/
def patFull (pat : List Char) (t : List Char) : Bool :=
  (parseRE pat).elim false fun re => reFull re t

/-! ### `_make_re`: the wildcard-to-regex compiler (src/__init__.py lines 67-81) -/

/-- The function `_make_re(map_string)` translated step by step from the source:
strip; `.` to a newline sentinel; `*` to `.*`; `?` to `.`; `^` to `\^`;
`$` to `\$`; the sentinel to `\.`; wrap in `^`...`$`. -/
def make_re (s : List Char) : List Char :=
  let r1 := replace1 '.' ['\n'] (pyStrip s)
  let r2 := replace1 '*' ['.', '*'] r1
  let r3 := replace1 '?' ['.'] r2
  let r4 := replace1 '^' ['\\', '^'] r3
  let r5 := replace1 '$' ['\\', '$'] r4
  '^' :: (replace1 '\n' ['\\', '.'] r5 ++ ['$'])

/-- Step 1 of the spec's reference algorithm: trim whitespace. -/
def specStep1 (s : List Char) : List Char := pyStrip s

/-- Step 2: replace each literal `.` with a sentinel (a newline). -/
def specStep2 (s : List Char) : List Char := replace1 '.' ['\n'] s

/-- Step 3: replace `*` with `.*` and `?` with `.`. -/
def specStep3 (s : List Char) : List Char :=
  replace1 '?' ['.'] (replace1 '*' ['.', '*'] s)

/-- Step 4: prefix each `^` and `$` with a backslash. -/
def specStep4 (s : List Char) : List Char :=
  replace1 '$' ['\\', '$'] (replace1 '^' ['\\', '^'] s)

/-- Step 5: replace the sentinel with an escaped literal period. -/
def specStep5 (s : List Char) : List Char := replace1 '\n' ['\\', '.'] s

/-- Step 6: wrap the whole result in `^` and `$` anchors. -/
def specStep6 (s : List Char) : List Char := '^' :: (s ++ ['$'])

/-- The spec's six-step reference compilation, written from the spec text. -/
def makeReSpec (s : List Char) : List Char :=
  specStep6 (specStep5 (specStep4 (specStep3 (specStep2 (specStep1 s)))))

/-- The per-character effect of the whole `_make_re` replacement chain
(a literal input newline collides with the sentinel). -/
def charMap (c : Char) : List Char :=
  if c = '.' then ['\\', '.']
  else if c = '\n' then ['\\', '.']
  else if c = '*' then ['.', '*']
  else if c = '?' then ['.']
  else if c = '^' then ['\\', '^']
  else if c = '$' then ['\\', '$']
  else [c]

/-- Characters of a wildcard whose compiled pattern is guaranteed to parse
with both anchors intact: everything except the regex metacharacters that
`_make_re` leaves unescaped and that this development's parser also treats
as structure (backslash, brackets, parentheses, alternation, plus). -/
def goodC (c : Char) : Prop :=
  c ≠ '\\' ∧ c ≠ '[' ∧ c ≠ '(' ∧ c ≠ ')' ∧ c ≠ '|' ∧ c ≠ '+'

instance : DecidablePred goodC := fun c => by unfold goodC; infer_instance

/-! ### Pair-list building (`GenreMapper.refresh`, lines 83-97) -/

/-- One pair of the shared list: (pattern, replacement). -/
abbrev Pair : Type := List Char × List Char

/-- One line of the pairs text: skip without `=`; split at the first `=`;
strip both halves; skip when the stripped original is empty. -/
def lineRule (line : List Char) : Option Pair :=
  if line.contains '=' then
    let original := pyStrip (line.takeWhile fun c => c ≠ '=')
    if original = [] then none
    else some (original, pyStrip ((line.dropWhile fun c => c ≠ '=').drop 1))
  else none

/-- The (original, replacement) pairs surviving line parsing, in order. -/
def rawPairs (text : List Char) : List Pair :=
  (pairsSplit text).filterMap lineRule

/-- The pair list built by `refresh` from a present pairs text: in regex
mode the stripped original is the pattern, otherwise it is compiled by
`_make_re`. -/
def refreshPairs (useRegex : Bool) (text : List Char) : List Pair :=
  (rawPairs text).map fun pr => (if useRegex then pr.1 else make_re pr.1, pr.2)

/-- The full effect of one `refresh` call on the shared
`GenreMappingPairs.pairs` state: with an absent (`None`) pairs setting the
method logs a warning and returns early, leaving the old list; otherwise
`set_pairs` replaces the list with the newly built one. -/
def refreshState (useRegex : Bool) (text : Option (List Char)) (old : List Pair) :
    List Pair :=
  match text with
  | none => old
  | some t => refreshPairs useRegex t

/-! ### The rewriter (`GenreMapper.track_genre_mapper`, lines 102-127) -/

/-- The inner pair loop for one genre token: pairs in order; an empty
working value short-circuits `genre and re.search(...)` so nothing is
tried; an invalid pattern raises `re.error`, is logged and skipped; on a
match the working value becomes the replacement and, with
first-match-only, the loop breaks. -/
def applyPairs (firstOnly : Bool) (pairs : List Pair) (g : List Char) : List Char :=
  match pairs with
  | [] => g
  | (original, replacement) :: rest =>
    if g = [] then applyPairs firstOnly rest g
    else
      match parseRE original with
      | none => applyPairs firstOnly rest g
      | some re =>
        if reSearch re g then
          if firstOnly then replacement else applyPairs firstOnly rest replacement
        else applyPairs firstOnly rest g

/-- Would this pair fire on this working value?  (Non-empty value, valid
pattern, successful search.)  Used to characterise first-match-only. -/
def pairApplies (pr : Pair) (g : List Char) : Bool :=
  !g.isEmpty && (parseRE pr.1).elim false fun re => reSearch re g

/-- The token loop with its accumulated result set: transform each token,
drop empty results, title-case and add to the set. -/
def processGo (firstOnly : Bool) (pairs : List Pair) (acc : List (List Char)) :
    List (List Char) → List (List Char)
  | [] => acc
  | g :: gs =>
    let g' := applyPairs firstOnly pairs g
    processGo firstOnly pairs (if g' = [] then acc else addToSet (pyTitle g') acc) gs

/-- The token loop started from the empty result set. -/
def processTokens (firstOnly : Bool) (pairs : List Pair) (tokens : List (List Char)) :
    List (List Char) :=
  processGo firstOnly pairs [] tokens

/-- Model of `sorted(genres)`: the final genre list written back. -/
def mapGenres (firstOnly : Bool) (pairs : List Pair) (tokens : List (List Char)) :
    List (List Char) :=
  sortL (processTokens firstOnly pairs tokens)

/-- A metadata field value: a plain string or a multi-value list. -/
inductive FVal : Type
  | s (v : List Char) : FVal
  | l (vs : List (List Char)) : FVal
deriving DecidableEq

/-- The constant `MULTI_VALUED_JOINER` from `picard.metadata`. -/
def MULTI : List Char := [';', ' ']

/-- Reading a field as a string (Picard joins multi-values with
`MULTI_VALUED_JOINER`). -/
def fvalStr : FVal → List Char
  | .s v => v
  | .l vs => (vs.intersperse MULTI).flatten

/-- A metadata record: an association list of fields. -/
abbrev Metadata : Type := List (List Char × FVal)

/-- Field lookup (`metadata[key]` presence and value). -/
def getVal : Metadata → List Char → Option FVal
  | [], _ => none
  | (k', v') :: rest, k => if k' = k then some v' else getVal rest k

/-- Field assignment (`metadata[key] = value`). -/
def setVal : Metadata → List Char → FVal → Metadata
  | [], k, v => [(k, v)]
  | (k', v') :: rest, k, v =>
    if k' = k then (k, v) :: rest else (k', v') :: setVal rest k v

/-- The `genre` key. -/
def gkey : List Char := ['g', 'e', 'n', 'r', 'e']

/-- The configuration the rewriter reads: the enable flag, the
first-match-only flag and the genre separator (`[]` models an unset or
empty `join_genres`, which is falsy). -/
structure Cfg : Type where
  enabled : Bool
  firstOnly : Bool
  separator : List Char

/-- The processor `track_genre_mapper`: disabled, or a missing or empty genre field, is
a no-op; otherwise split the genre string on the configured separator
(falling back to `MULTI_VALUED_JOINER`), rewrite every token, and store
the sorted deduplicated title-cased list back in the genre field. -/
def track_genre_mapper (cfg : Cfg) (pairs : List Pair) (md : Metadata) : Metadata :=
  if cfg.enabled = false then md
  else
    match getVal md gkey with
    | none => md
    | some v =>
      if fvalStr v = [] then md
      else
        let joiner := if cfg.separator = [] then MULTI else cfg.separator
        let tokens := splitStr joiner (fvalStr v)
        setVal md gkey (.l (mapGenres cfg.firstOnly pairs tokens))

/-! ### Helper lemmas -/

theorem cmap_append (f : Char → List Char) (s t : List Char) :
    cmap f (s ++ t) = cmap f s ++ cmap f t := by
  induction s with
  | nil => rfl
  | cons c cs ih => simp [cmap, ih]

theorem cmap_cmap (f g : Char → List Char) (s : List Char) :
    cmap g (cmap f s) = cmap (fun c => cmap g (f c)) s := by
  induction s with
  | nil => rfl
  | cons c cs ih => simp [cmap, cmap_append, ih]

theorem cmap_congr {f g : Char → List Char} (h : ∀ c, f c = g c) (s : List Char) :
    cmap f s = cmap g s := by
  induction s with
  | nil => rfl
  | cons c cs ih => simp [cmap, ih, h c]

theorem charMap_chain (c : Char) :
    cmap (fun d => if d = '\n' then ['\\', '.'] else [d])
      (cmap (fun d => if d = '$' then ['\\', '$'] else [d])
        (cmap (fun d => if d = '^' then ['\\', '^'] else [d])
          (cmap (fun d => if d = '?' then ['.'] else [d])
            (cmap (fun d => if d = '*' then ['.', '*'] else [d])
              (if c = '.' then ['\n'] else [c]))))) = charMap c := by
  by_cases h1 : c = '.'
  · subst h1; decide
  by_cases h2 : c = '\n'
  · subst h2; decide
  by_cases h3 : c = '*'
  · subst h3; decide
  by_cases h4 : c = '?'
  · subst h4; decide
  by_cases h5 : c = '^'
  · subst h5; decide
  by_cases h6 : c = '$'
  · subst h6; decide
  simp [cmap, charMap, h1, h2, h3, h4, h5, h6]

theorem replace1_cons (a : Char) (rep : List Char) (c : Char) (cs : List Char) :
    replace1 a rep (c :: cs) = (if c = a then rep else [c]) ++ replace1 a rep cs := rfl

theorem replace1_append (a : Char) (rep : List Char) (s t : List Char) :
    replace1 a rep (s ++ t) = replace1 a rep s ++ replace1 a rep t :=
  cmap_append _ s t

/-- The five replacement passes of `_make_re` act character by character. -/
theorem chain_eq (l : List Char) :
    replace1 '\n' ['\\', '.']
      (replace1 '$' ['\\', '$']
        (replace1 '^' ['\\', '^']
          (replace1 '?' ['.']
            (replace1 '*' ['.', '*']
              (replace1 '.' ['\n'] l))))) = cmap charMap l := by
  induction l with
  | nil => rfl
  | cons c cs ih =>
    simp only [replace1_cons, replace1_append, ih]
    rw [show cmap charMap (c :: cs) = charMap c ++ cmap charMap cs from rfl]
    congr 1
    exact charMap_chain c

/-- The compiler `_make_re` maps each stripped input character independently. -/
theorem make_re_charMap (s : List Char) :
    make_re s = '^' :: (cmap charMap (pyStrip s) ++ ['$']) := by
  rw [← chain_eq]
  rfl

theorem pLoop_escStep (c : Char) (rest : List Char) (acc : List RPiece)
    (h : c.isAlphanum = false) :
    pLoop (c :: rest) acc .esc = pLoop rest ((.lit c, .one) :: acc) .top := by
  rw [pLoop.eq_def]
  rcases rest with _ | ⟨d, r⟩ <;> simp [h]

theorem pLoop_lit (c : Char) (rest : List Char) (acc : List RPiece)
    (h1 : c ≠ '$') (h2 : c ≠ '^') (h3 : c ≠ '|') (h4 : c ≠ '(') (h5 : c ≠ ')')
    (h6 : c ≠ '\\') (h7 : c ≠ '[') (h8 : c ≠ '.') (h9 : c ≠ '*') (h10 : c ≠ '+')
    (h11 : c ≠ '?') :
    pLoop (c :: rest) acc .top = pLoop rest ((.lit c, .one) :: acc) .top := by
  rw [pLoop.eq_def]
  rcases rest with _ | ⟨d, rest2⟩
  · simp [h1, h2, h3, h4, h5, h6, h7, h8, h9, h10, h11]
  · simp [h1, h2, h3, h4, h5, h6, h7, h8, h9, h10, h11]

/-- Parsing the compiled body of a good wildcard always succeeds and always
consumes the final `$` as the end anchor. -/
theorem parseLoop_good (cs : List Char) :
    ∀ acc : List RPiece, (∀ c ∈ cs, goodC c) →
      ∃ ps, pLoop (cmap charMap cs ++ ['$']) acc .top = some (ps, true) := by
  induction cs with
  | nil => exact fun acc _ => ⟨acc.reverse, rfl⟩
  | cons c cs ih =>
    intro acc h
    have hc : goodC c := h c (List.mem_cons_self c cs)
    have hcs : ∀ d ∈ cs, goodC d := fun d hd => h d (List.mem_cons_of_mem c hd)
    by_cases e1 : c = '.'
    · subst e1; exact ih ((.lit '.', .one) :: acc) hcs
    by_cases e2 : c = '\n'
    · subst e2; exact ih ((.lit '.', .one) :: acc) hcs
    by_cases e3 : c = '*'
    · subst e3; exact ih ((.any, .star) :: acc) hcs
    by_cases e4 : c = '?'
    · subst e4; exact ih ((.any, .one) :: acc) hcs
    by_cases e5 : c = '^'
    · subst e5; exact ih ((.lit '^', .one) :: acc) hcs
    by_cases e6 : c = '$'
    · subst e6
      have hstep : pLoop (cmap charMap ('$' :: cs) ++ ['$']) acc .top
          = pLoop ('$' :: (cmap charMap cs ++ ['$'])) acc .esc := rfl
      rw [hstep, pLoop_escStep '$' _ acc (by decide)]
      exact ih ((.lit '$', .one) :: acc) hcs
    have hm : charMap c = [c] := by
      simp [charMap, e1, e2, e3, e4, e5, e6]
    rw [show cmap charMap (c :: cs) ++ ['$'] = c :: (cmap charMap cs ++ ['$']) by
      simp [cmap, hm]]
    rw [pLoop_lit c _ acc e6 e5 hc.2.2.2.2.1 hc.2.2.1 hc.2.2.2.1 hc.1 hc.2.1 e1 e3
      hc.2.2.2.2.2 e4]
    exact ih ((.lit c, .one) :: acc) hcs

/-- A good wildcard compiles to a pattern that parses with both anchors. -/
theorem parse_make_re_anchored (w : List Char) (hw : ∀ c ∈ pyStrip w, goodC c) :
    ∃ ps, parseRE (make_re w) = some ⟨true, ps, true⟩ := by
  obtain ⟨ps, hps⟩ := parseLoop_good (pyStrip w) [] hw
  refine ⟨ps, ?_⟩
  rw [make_re_charMap]
  show (pLoop (cmap charMap (pyStrip w) ++ ['$']) [] .top).map _ = _
  rw [hps]
  rfl

/-- For a token that does not end in a newline, an anchored prefix match
with the `$` rule is a whole-token match. -/
theorem matchFrom_full : ∀ (t : List Char) (r : Rx), t.getLast? ≠ some '\n' →
    matchFrom r true t = true → rxMatch r t = true
  | [], _, _, h => h
  | c :: s, r, hl, h => by
    rw [matchFrom] at h
    rcases Bool.or_eq_true_iff.mp h with h' | h'
    · exfalso
      have hd : c :: s = ['\n'] := of_decide_eq_true (by
        have := (Bool.and_eq_true_iff.mp h').2
        simpa using this)
      rw [hd] at hl
      simp at hl
    · have hl' : s.getLast? ≠ some '\n' := by
        rcases s with _ | ⟨d, s'⟩
        · simp
        · rwa [List.getLast?_cons_cons] at hl
      exact matchFrom_full s (deriv r c) hl' h'

/-- An empty working value is never tested, so it stays empty through the
whole pair list. -/
theorem applyPairs_nil_token (firstOnly : Bool) :
    ∀ pairs : List Pair, applyPairs firstOnly pairs [] = []
  | [] => rfl
  | (_, _) :: rest => applyPairs_nil_token firstOnly rest

/-- A pair whose pattern does not compile is skipped (the caught
`re.error`), for every token. -/
theorem applyPairs_invalid (pat : List Char) (h : parseRE pat = none)
    (firstOnly : Bool) (r : List Char) (rest : List Pair) (g : List Char) :
    applyPairs firstOnly ((pat, r) :: rest) g = applyPairs firstOnly rest g := by
  by_cases hg : g = []
  · subst hg
    simp [applyPairs]
  · simp [applyPairs, hg, h]

/-- With first-match-only, the result is the replacement of the first
applicable pair, or the unchanged token. -/
theorem applyPairs_first (g : List Char) :
    ∀ pairs : List Pair,
      applyPairs true pairs g
        = ((pairs.find? fun pr => pairApplies pr g).elim g Prod.snd)
  | [] => rfl
  | (o, r) :: rest => by
    by_cases hg : g = []
    · subst hg
      have hskip : pairApplies (o, r) [] = false := by simp [pairApplies]
      simp only [applyPairs, if_pos rfl, List.find?, hskip]
      exact applyPairs_first [] rest
    · rcases hp : parseRE o with _ | re
      · have hskip : pairApplies (o, r) g = false := by simp [pairApplies, hp]
        simp only [applyPairs, if_neg hg, hp, List.find?, hskip]
        exact applyPairs_first g rest
      · rcases hs : reSearch re g with _ | _
        · have hskip : pairApplies (o, r) g = false := by
            simp [pairApplies, hp, hs]
          simp only [applyPairs, if_neg hg, hp, hs, List.find?, hskip]
          exact applyPairs_first g rest
        · have hfire : pairApplies (o, r) g = true := by
            simp [pairApplies, hp, hs, hg]
          simp only [applyPairs, if_neg hg, hp, hs, List.find?, hfire]
          rfl

theorem mem_addToSet {x a : List Char} {s : List (List Char)}
    (h : x ∈ addToSet a s) : x = a ∨ x ∈ s := by
  unfold addToSet at h
  split at h
  · exact Or.inr h
  · exact List.mem_cons.mp h

theorem addToSet_nodup {a : List Char} {s : List (List Char)} (h : s.Nodup) :
    (addToSet a s).Nodup := by
  unfold addToSet
  split
  · exact h
  · exact List.nodup_cons.mpr ⟨by assumption, h⟩

theorem pyTitle_ne_nil {g : List Char} (h : g ≠ []) : pyTitle g ≠ [] := by
  rcases g with _ | ⟨c, cs⟩
  · exact absurd rfl h
  · unfold pyTitle pyTitleGo
    split <;> simp

/-- Empty tokens contribute nothing to the token loop. -/
theorem processGo_filter (firstOnly : Bool) (pairs : List Pair) :
    ∀ (tokens : List (List Char)) (acc : List (List Char)),
      processGo firstOnly pairs acc tokens
        = processGo firstOnly pairs acc (tokens.filter fun g => !g.isEmpty)
  | [], _ => rfl
  | g :: gs, acc => by
    by_cases hg : g = []
    · subst hg
      simp only [processGo, applyPairs_nil_token, if_pos rfl, List.filter,
        List.isEmpty_nil, Bool.not_true]
      exact processGo_filter firstOnly pairs gs acc
    · have hne : (!g.isEmpty) = true := by
        simp [List.isEmpty_iff, hg]
      simp only [processGo, List.filter, hne]
      exact processGo_filter firstOnly pairs gs _

/-- Everything the token loop adds to the set is the title-cased image of
some non-empty working value. -/
theorem processGo_mem (firstOnly : Bool) (pairs : List Pair) :
    ∀ (tokens : List (List Char)) (acc : List (List Char)) (x : List Char),
      x ∈ processGo firstOnly pairs acc tokens →
        x ∈ acc ∨ ∃ y, y ≠ [] ∧ x = pyTitle y
  | [], _, _, h => Or.inl h
  | g :: gs, acc, x, h => by
    rw [processGo] at h
    rcases processGo_mem firstOnly pairs gs _ x h with h' | h'
    · split at h'
      · exact Or.inl h'
      · rcases mem_addToSet h' with h'' | h''
        · exact Or.inr ⟨applyPairs firstOnly pairs g, by assumption, h''⟩
        · exact Or.inl h''
    · exact Or.inr h'

/-- The token loop preserves distinctness of the result set. -/
theorem processGo_nodup (firstOnly : Bool) (pairs : List Pair) :
    ∀ (tokens : List (List Char)) (acc : List (List Char)),
      acc.Nodup → (processGo firstOnly pairs acc tokens).Nodup
  | [], _, h => h
  | g :: gs, acc, h => by
    rw [processGo]
    refine processGo_nodup firstOnly pairs gs _ ?_
    split
    · exact h
    · exact addToSet_nodup h

theorem lexLe_total : ∀ a b : List Char, lexLe a b = true ∨ lexLe b a = true
  | [], _ => Or.inl rfl
  | _ :: _, [] => Or.inr rfl
  | a :: as, b :: bs => by
    by_cases hab : a = b
    · subst hab
      simpa [lexLe] using lexLe_total as bs
    · rcases lt_trichotomy a b with h | h | h
      · left
        simp [lexLe, hab, h]
      · exact absurd h hab
      · right
        have hba : b ≠ a := fun e => hab e.symm
        simp [lexLe, hba, h]

theorem lexLe_trans :
    ∀ a b c : List Char, lexLe a b = true → lexLe b c = true → lexLe a c = true
  | [], _, _, _, _ => rfl
  | _ :: _, [], _, h, _ => by simp [lexLe] at h
  | _ :: _, _ :: _, [], _, h => by simp [lexLe] at h
  | a :: as, b :: bs, c :: cs, h1, h2 => by
    by_cases hab : a = b <;> by_cases hbc : b = c
    · subst hab; subst hbc
      simp only [lexLe, if_pos rfl] at h1 h2 ⊢
      exact lexLe_trans as bs cs h1 h2
    · subst hab
      simp only [lexLe, if_neg hbc] at h2 ⊢
      exact h2
    · subst hbc
      simp only [lexLe, if_neg hab] at h1 ⊢
      exact h1
    · simp only [lexLe, if_neg hab] at h1
      simp only [lexLe, if_neg hbc] at h2
      have hac : a < c := lt_trans (of_decide_eq_true h1) (of_decide_eq_true h2)
      simp [lexLe, ne_of_lt hac, hac]

instance : IsTotal (List Char) LexLe := ⟨fun a b => lexLe_total a b⟩

instance : IsTrans (List Char) LexLe := ⟨fun a b c => lexLe_trans a b c⟩

theorem sortL_sorted (l : List (List Char)) : List.Sorted LexLe (sortL l) :=
  List.sorted_insertionSort LexLe l

theorem sortL_perm (l : List (List Char)) : List.Perm (sortL l) l :=
  List.perm_insertionSort LexLe l

theorem sortL_nodup {l : List (List Char)} (h : l.Nodup) : (sortL l).Nodup :=
  (sortL_perm l).nodup_iff.mpr h

theorem mem_sortL {x : List Char} {l : List (List Char)} : x ∈ sortL l ↔ x ∈ l :=
  (sortL_perm l).mem_iff

/-- Writing one key leaves every other key's value unchanged. -/
theorem getVal_setVal_ne (md : Metadata) (k k' : List Char) (v : FVal)
    (h : k' ≠ k) : getVal (setVal md k v) k' = getVal md k' := by
  induction md with
  | nil => simp [setVal, getVal, Ne.symm h]
  | cons p rest ih =>
    obtain ⟨k0, v0⟩ := p
    by_cases e : k0 = k
    · subst e
      simp [setVal, getVal, Ne.symm h]
    · simp only [setVal, if_neg e, getVal]
      by_cases e' : k0 = k'
      · simp [e']
      · simp [e', ih]

/-! ### Claims -/

/-- C1, counterexample: in regex mode the pair pattern is used verbatim by
`re.search`, which is **not** anchored: the raw pattern `Rock` (built by
`refresh` from the pairs text `Rock=X` with `use_regex` enabled) matches
the token `Hard Rock` — a proper-substring match — and the replacement
fires, contradicting the claim that every pattern matches only when it
matches the entire token. -/
theorem c1_counterexample :
    refreshPairs true "Rock=X".data = [("Rock".data, "X".data)]
      ∧ patSearch "Rock".data "Hard Rock".data = true
      ∧ patFull "Rock".data "Hard Rock".data = false
      ∧ applyPairs true [("Rock".data, "X".data)] "Hard Rock".data = "X".data := by
  decide

/-- C1, amended: a pattern compiled from a wildcard by `_make_re` is
anchored with `^` and `$`, so — for wildcards made of ordinary characters
and the handled specials (no backslash, bracket, parenthesis, bar or
plus), and for tokens not ending in a newline (where Python's `$` also
matches just before the final newline) — a search hit is always a
whole-token match.  Raw regex-mode patterns are searched unanchored and
may match proper substrings. -/
theorem c1_amended (w t : List Char)
    (hw : ∀ c ∈ pyStrip w, goodC c)
    (ht : t.getLast? ≠ some '\n')
    (hs : patSearch (make_re w) t = true) :
    patFull (make_re w) t = true := by
  obtain ⟨ps, hps⟩ := parse_make_re_anchored w hw
  rw [patSearch, hps] at hs
  rw [patFull, hps]
  exact matchFrom_full t (toRx ps) ht hs

/-- Witness for C1 amended at the wildcard `Rock?` and token `Rocks`. -/
theorem c1_amended_witness :
    (∀ c ∈ pyStrip "Rock?".data, goodC c)
      ∧ patFull (make_re "Rock?".data) "Rocks".data = true :=
  ⟨by decide,
    c1_amended "Rock?".data "Rocks".data (by decide) (by decide) (by decide)⟩

/-- C2: with `use_regex` false, `_make_re` equals the spec's six-step
reference algorithm (trim; `.` to a sentinel; `*` to `.*` and `?` to `.`;
escape `^` and `$`; sentinel to `\.`; wrap in `^`...`$`), for every input
string; both are total pure functions with no error case. -/
theorem c2_make_re_eq_spec : ∀ s : List Char, make_re s = makeReSpec s :=
  fun _ => rfl

/-- C3: compiled wildcard patterns realise the documented semantics under
case-insensitive full-token matching: `*` matches any run of characters,
`?` exactly one character, and literal `.`, `^`, `$` match only
themselves. -/
theorem c3_wildcard_semantics :
    patSearch (make_re "*rock*".data) "Hard Rock".data = true
      ∧ patSearch (make_re "*rock*".data) "country rock".data = true
      ∧ patSearch (make_re "*rock*".data) "ROCK".data = true
      ∧ patSearch (make_re "Rock?".data) "Rocks".data = true
      ∧ patSearch (make_re "Rock?".data) "Rock1".data = true
      ∧ patSearch (make_re "Rock?".data) "Rocker".data = false
      ∧ patSearch (make_re "Rock?".data) "Rock".data = false
      ∧ patSearch (make_re "Hard.Rock".data) "Hard.Rock".data = true
      ∧ patSearch (make_re "Hard.Rock".data) "HardXRock".data = false
      ∧ patSearch (make_re "a^b$c".data) "a^b$c".data = true
      ∧ patSearch (make_re "a^b$c".data) "aXbYc".data = false := by
  decide

/-- C4: pair-line parsing splits on `\n`, `\r\n` and `\n\r`, skips lines
without `=`, splits remaining lines on the first `=`, trims both halves,
skips lines whose trimmed original is empty, and keeps survivors in line
order; the documented input yields exactly the two documented pairs, in
both regex and wildcard mode. -/
theorem c4_pair_line_parsing :
    rawPairs "Rock=Alt Rock\n=Ignored\nNoEquals\nGenre1 = Genre2".data
        = [("Rock".data, "Alt Rock".data), ("Genre1".data, "Genre2".data)]
      ∧ pairsSplit "a\r\nb\n\rc\nd".data
        = ["a".data, "b".data, "c".data, "d".data]
      ∧ refreshPairs true "Rock=Alt Rock\n=Ignored\nNoEquals\nGenre1 = Genre2".data
        = [("Rock".data, "Alt Rock".data), ("Genre1".data, "Genre2".data)]
      ∧ refreshPairs false "Rock=Alt Rock\n=Ignored\nNoEquals\nGenre1 = Genre2".data
        = [(make_re "Rock".data, "Alt Rock".data),
            (make_re "Genre1".data, "Genre2".data)] := by
  decide

/-- C5: pairs are tried in list order; a match replaces the working value;
with first-match-only the scan stops at the first applicable pair (proved
in general), without it subsequent pairs cascade over the replaced value:
on the documented pair list and token the two modes give `Rock` and
`Rock Music` respectively. -/
theorem c5_first_match_only :
    applyPairs true [(make_re "*rock*".data, "Rock".data),
        (make_re "Rock".data, "Rock Music".data)] "Hard Rock".data = "Rock".data
      ∧ applyPairs false [(make_re "*rock*".data, "Rock".data),
        (make_re "Rock".data, "Rock Music".data)] "Hard Rock".data
          = "Rock Music".data
      ∧ ∀ (pairs : List Pair) (g : List Char),
          applyPairs true pairs g
            = ((pairs.find? fun pr => pairApplies pr g).elim g Prod.snd) :=
  ⟨by decide, by decide, fun pairs g => applyPairs_first g pairs⟩

/-- C6: the genre list written back is sorted (lexicographically, not in
original order), duplicate-free, and consists of title-cased non-empty
values; on the documented input the output is `["Pop", "Rock"]`. -/
theorem c6_output_shape :
    track_genre_mapper ⟨true, false, []⟩ []
        [(gkey, .s "rock; ROCK; pop".data), ("title".data, .s "T".data)]
      = [(gkey, .l ["Pop".data, "Rock".data]), ("title".data, .s "T".data)]
      ∧ ∀ (firstOnly : Bool) (pairs : List Pair) (tokens : List (List Char)),
          List.Sorted LexLe (mapGenres firstOnly pairs tokens)
          ∧ (mapGenres firstOnly pairs tokens).Nodup
          ∧ (mapGenres firstOnly pairs tokens).Forall
              fun g => ∃ y, y ≠ [] ∧ g = pyTitle y := by
  refine ⟨by decide, fun f ps ts =>
    ⟨sortL_sorted _, sortL_nodup (processGo_nodup f ps ts [] List.nodup_nil), ?_⟩⟩
  rw [List.forall_iff_forall_mem]
  intro g hg
  unfold mapGenres processTokens at hg
  rcases processGo_mem f ps ts [] g (mem_sortL.mp hg) with h | h
  · simp at h
  · exact h

/-- C7: an invalid regex-mode pattern (e.g. `[unclosed`) fails to compile,
is caught at each pair-application attempt and skipped for that token
(proved for every invalid pattern, token and remaining pair list), while
remaining valid pairs still apply; the rewriter is a total function, so no
exception escapes. -/
theorem c7_invalid_regex :
    parseRE "[unclosed".data = none
      ∧ (∀ pat : List Char, parseRE pat = none →
          ∀ (firstOnly : Bool) (r : List Char) (rest : List Pair) (g : List Char),
            applyPairs firstOnly ((pat, r) :: rest) g = applyPairs firstOnly rest g)
      ∧ applyPairs true [("[unclosed".data, "X".data), ("^rock$".data, "Rock".data)]
          "rock".data = "Rock".data :=
  ⟨by decide, fun pat h f r rest g => applyPairs_invalid pat h f r rest g, by decide⟩

/-- Witness for C7 at the invalid pattern `[unclosed`. -/
theorem c7_invalid_regex_witness :
    parseRE "[unclosed".data = none
      ∧ applyPairs true [("[unclosed".data, "X".data)] "abc".data
        = applyPairs true [] "abc".data :=
  ⟨by decide,
    c7_invalid_regex.2.1 "[unclosed".data (by decide) true "X".data [] "abc".data⟩

/-- C8: the rewriter modifies at most the `genre` field (every other key
reads back unchanged); it is the identity when the enable flag is false,
when the metadata has no `genre` field, or when that field is empty —
regardless of the configured pairs. -/
theorem c8_frame (cfg : Cfg) (pairs : List Pair) (md : Metadata) :
    (∀ k, k ≠ gkey → getVal (track_genre_mapper cfg pairs md) k = getVal md k)
      ∧ (cfg.enabled = false → track_genre_mapper cfg pairs md = md)
      ∧ (getVal md gkey = none → track_genre_mapper cfg pairs md = md)
      ∧ (∀ v, getVal md gkey = some v → fvalStr v = [] →
          track_genre_mapper cfg pairs md = md) := by
  refine ⟨?_, ?_, ?_, ?_⟩
  · intro k hk
    unfold track_genre_mapper
    split
    · rfl
    · split
      · rfl
      · split
        · rfl
        · exact getVal_setVal_ne md gkey k _ hk
  · intro h
    unfold track_genre_mapper
    rw [if_pos h]
  · intro h
    unfold track_genre_mapper
    split
    · rfl
    · split
      · rfl
      · rename_i v hv
        rw [h] at hv
        cases hv
  · intro v hv he
    unfold track_genre_mapper
    split
    · rfl
    · split
      · rfl
      · rename_i v' hv'
        rw [hv] at hv'
        cases hv'
        rw [if_pos he]

/-- Witness for C8: a disabled run and the frame of an enabled run. -/
theorem c8_frame_witness :
    getVal (track_genre_mapper ⟨true, false, []⟩ []
        [(gkey, .s "rock".data), ("title".data, .s "T".data)]) "title".data
      = getVal [(gkey, FVal.s "rock".data), ("title".data, FVal.s "T".data)]
          "title".data
      ∧ track_genre_mapper ⟨false, false, []⟩ [] [(gkey, FVal.s "rock".data)]
        = [(gkey, FVal.s "rock".data)] :=
  ⟨(c8_frame ⟨true, false, []⟩ []
      [(gkey, .s "rock".data), ("title".data, .s "T".data)]).1 "title".data
      (by decide),
    (c8_frame ⟨false, false, []⟩ [] [(gkey, FVal.s "rock".data)]).2.1 rfl⟩

/-- C9, counterexample: a `refresh` call that finds the pairs setting
absent (`None`) returns early and leaves the previous shared list in
place, so the post-state of a refresh call is **not** always the newly
built list independent of the old state. -/
theorem c9_counterexample :
    refreshState false none [("a".data, "b".data)] ≠ refreshState false none [] := by
  decide

/-- C9, amended: a `refresh` call with a present pairs text (even the
empty string, which builds the empty list) replaces the shared list
wholesale with the newly built list, independently of the old state; a
call with an absent (`None`) pairs text returns early and leaves the old
list untouched. -/
theorem c9_amended (useRegex : Bool) (s : List Char) (old : List Pair) :
    refreshState useRegex (some s) old = refreshPairs useRegex s
      ∧ refreshState useRegex none old = old
      ∧ refreshState useRegex (some []) old = [] :=
  ⟨rfl, rfl, rfl⟩

/-- C10: an empty genre token is never tested against any pair — even a
pattern matching the empty string (`.*`, `^$`) is not applied — so once a
replacement empties the working value no later pair applies, empty tokens
never reach the output, and every output entry is non-empty. -/
theorem c10_empty_token :
    (∀ (firstOnly : Bool) (pairs : List Pair), applyPairs firstOnly pairs [] = [])
      ∧ patSearch ".*".data [] = true
      ∧ patSearch "^$".data [] = true
      ∧ applyPairs true [(".*".data, "X".data), ("^$".data, "Y".data)] [] = []
      ∧ applyPairs false [(make_re "*".data, []), (".*".data, "X".data)]
          "rock".data = []
      ∧ mapGenres false [(make_re "*".data, []), (".*".data, "X".data)]
          ["rock".data] = []
      ∧ (∀ (firstOnly : Bool) (pairs : List Pair) (tokens : List (List Char)),
          processTokens firstOnly pairs tokens
            = processTokens firstOnly pairs (tokens.filter fun g => !g.isEmpty))
      ∧ (∀ (firstOnly : Bool) (pairs : List Pair) (tokens : List (List Char)),
          (mapGenres firstOnly pairs tokens).all (fun g => !g.isEmpty) = true) := by
  refine ⟨fun f ps => applyPairs_nil_token f ps, by decide, by decide, by decide,
    by decide, by decide, fun f ps ts => processGo_filter f ps ts [],
    fun f ps ts => ?_⟩
  rw [List.all_eq_true]
  intro g hg
  unfold mapGenres processTokens at hg
  rcases processGo_mem f ps ts [] g (mem_sortL.mp hg) with h | h
  · simp at h
  · obtain ⟨y, hy, rfl⟩ := h
    simpa [List.isEmpty_iff] using pyTitle_ne_nil hy

end GenreMapper
